import Mathlib

/-!
# Verification of the timeline layout and interaction-geometry engine

A shallow embedding of the core of `src/components/Timeline.js`:

* `assignLanesToItems` — the greedy interval-to-lane packing;
* `calculateDateRange` — the padded visible date window;
* `getItemStyle` — per-item pixel geometry (left offset, clamped width);
* `handleDrag` — the per-move drag-step logic: pixel-delta to day-delta
  conversion, the reference-X update, and the per-item date mutation.

Dates are modelled at calendar-day granularity as integers (a day number);
a JavaScript `Date` value, which may be an Invalid Date (`NaN`) when the
source string is unparseable, is modelled as `Option Int` with `none`
standing for the Invalid Date.  JavaScript comparisons on `NaN` are false,
`Math.min`/`Math.max` propagate `NaN`, `setDate` on an Invalid Date keeps
it invalid, and `toISOString` on an Invalid Date throws a `RangeError`;
each of these behaviours is embedded explicitly below.  Pixel quantities
and the zoom factor are rationals.
-/

namespace Timeline

/-- An item with already-parsed, valid day-granularity dates: the shape the
lane assigner and drag logic work with when all date strings parse.
`end_` embeds the source field `end` (a Lean keyword). -/
structure Item where
  id : Nat
  start : Int
  end_ : Int
  deriving DecidableEq, Repr

/-- An item as the code actually receives it: each date field is the result
of `new Date(field)` and may be an Invalid Date (`none`). -/
structure RawItem where
  id : Nat
  start : Option Int
  end_ : Option Int
  deriving DecidableEq, Repr

/-- The parse of an item all of whose date strings are well-formed. -/
def Item.toRaw (i : Item) : RawItem :=
  { id := i.id, start := some i.start, end_ := some i.end_ }

/-! ## LaneAssigner: `assignLanesToItems` (Timeline.js lines 7–31) -/

/-- The placement test of `assignItemToLane`:
`new Date(lane[lane.length - 1].end) < new Date(item.start)`.
On an empty lane, `lane[lane.length - 1]` is `undefined`, the comparison is
a `NaN` comparison and hence false; lanes are never empty in practice. -/
def laneOk (lane : List Item) (item : Item) : Bool :=
  match lane.getLast? with
  | some lastItem => lastItem.end_ < item.start
  | none => false

/-- `assignItemToLane` (lines 17–25): scan the lanes in creation order and
push the item onto the first lane whose last item ends strictly before the
item starts; if none qualifies, open a new lane at the end. -/
def assignItemToLane (lanes : List (List Item)) (item : Item) : List (List Item) :=
  match lanes with
  | [] => [[item]]
  | lane :: rest =>
    if laneOk lane item then (lane ++ [item]) :: rest
    else lane :: assignItemToLane rest item

/-- The comparator `new Date(a.start) - new Date(b.start)` sorts ascending
by start date. -/
def startLE (a b : Item) : Prop := a.start ≤ b.start

instance : DecidableRel startLE := fun a b => by
  unfold startLE; infer_instance

/-- The stable ascending sort `[...items].sort((a, b) => new Date(a.start) -
new Date(b.start))`; JavaScript `Array.prototype.sort` is stable, and any
stable sort by start date produces the same list. -/
def sortByStart (items : List Item) : List Item :=
  items.insertionSort startLE

/-- The body of `assignLanesToItems` on a non-null argument: stable-sort by
start date, then fold the items through `assignItemToLane`. -/
def assignLanes (items : List Item) : List (List Item) :=
  (sortByStart items).foldl assignItemToLane []

/-- `assignLanesToItems` (lines 7–31).  The argument is `Option`al: `none`
embeds a null/undefined `items` argument, short-circuited by the
`!items || items.length === 0` guard. -/
def assignLanesToItems (items : Option (List Item)) : List (List Item) :=
  match items with
  | none => []
  | some l => if l.isEmpty then [] else assignLanes l

/-! ## CoordinateMapper: `calculateDateRange` (lines 48–80) -/

/-- The visible date window; either bound may be an Invalid Date. -/
structure DateRange where
  minDate : Option Int
  maxDate : Option Int
  deriving DecidableEq, Repr

/-- Binary `Math.min` over `getTime()` values: `NaN` (an Invalid Date)
propagates. -/
def jsMin2 (a b : Option Int) : Option Int :=
  match a, b with
  | some x, some y => some (min x y)
  | _, _ => none

/-- Binary `Math.max` over `getTime()` values: `NaN` propagates. -/
def jsMax2 (a b : Option Int) : Option Int :=
  match a, b with
  | some x, some y => some (max x y)
  | _, _ => none

/-- `Math.min(...list)`: `NaN` if any argument is `NaN` (an empty spread
gives `Infinity`, i.e. an Invalid Date once passed to `new Date`; the code
only reaches this with a non-empty list). -/
def jsMinList (l : List (Option Int)) : Option Int :=
  match l with
  | [] => none
  | x :: xs => xs.foldl jsMin2 x

/-- `Math.max(...list)`, same conventions as `jsMinList`. -/
def jsMaxList (l : List (Option Int)) : Option Int :=
  match l with
  | [] => none
  | x :: xs => xs.foldl jsMax2 x

/-- `d.setDate(d.getDate() + n)` at day granularity: shift a valid date by
`n` days; an Invalid Date stays invalid. -/
def jsAddDays (d : Option Int) (n : Int) : Option Int := d.map (· + n)

/-- `calculateDateRange` (lines 48–80).  `today` is the current day number.
A null/undefined or empty `items` yields the default `[today, today+30]`
window.  Otherwise the minimum start and maximum end are computed with
`Math.min`/`Math.max` over `getTime()` values — `NaN`-propagating, never
throwing — and padded by 7 days on each side; the `catch` branch of the
source (returning the default window) is unreachable because no operation
in the `try` block throws, so it has no counterpart here. -/
def calculateDateRange (today : Int) (items : Option (List RawItem)) : DateRange :=
  match items with
  | none => { minDate := some today, maxDate := some (today + 30) }
  | some l =>
    if l.isEmpty then { minDate := some today, maxDate := some (today + 30) }
    else
      { minDate := jsAddDays (jsMinList (l.map (·.start))) (-7)
        maxDate := jsAddDays (jsMaxList (l.map (·.end_))) 7 }

/-! ## CoordinateMapper: pixel geometry (`getItemStyle`, lines 131–150) -/

/-- `Math.round`: round half toward positive infinity, `⌊q + 1/2⌋`. -/
def jsRound (q : ℚ) : Int := ⌊q + 1 / 2⌋

/-- The day-delta of a pointer movement (lines 172–173):
`Math.round(deltaX / (24 * zoomLevel))`. -/
def pixelDeltaToDays (deltaX zoom : ℚ) : Int :=
  jsRound (deltaX / (24 * zoom))

/-- The pixel position of a day-granularity date relative to the visible
range origin: `dayOffset * 24 * zoom`, the expression behind every `left`
and month-label offset in the source. -/
def dateToPixel (d minDate : Int) (zoom : ℚ) : ℚ :=
  ((d - minDate : Int) : ℚ) * 24 * zoom

/-- `daysBetween a b`: whole days from `a` to `b` at day granularity. -/
def daysBetween (a b : Int) : Int := b - a

/-- The geometry slice of the style object `getItemStyle` returns. -/
structure ItemStyle where
  left : ℚ
  width : ℚ
  deriving DecidableEq, Repr

/-- `getItemStyle` (lines 131–150) on an item with valid dates.  The
millisecond divisions are exact at day granularity, so `Math.floor` and
`Math.ceil` are applied to integral rationals. -/
def getItemStyle (minDate : Int) (zoom : ℚ) (item : Item) : ItemStyle :=
  let startDays : Int := ⌊((item.start : ℚ) - (minDate : ℚ))⌋
  let endDays : Int := ⌈((item.end_ : ℚ) - (minDate : ℚ))⌉
  { left := (startDays : ℚ) * 24 * zoom
    width := max (((endDays - startDays : Int) : ℚ) * 24 * zoom) 80 }

/-! ## DragController: `handleDrag` (lines 169–210) -/

/-- The drag mode held in `dragType`: `'start'`, `'end'` or `'move'`. -/
inductive DragType where
  | start
  | end_
  | move
  deriving DecidableEq, Repr

/-- The reference-X update of `handleDrag` (lines 172–177): the early
`if (daysDelta === 0) return;` fires *before* `setDragStartX(e.clientX)`,
so a move whose rounded day-delta is zero leaves `dragStartX` unchanged. -/
def nextDragStartX (dragStartX clientX zoom : ℚ) : ℚ :=
  if pixelDeltaToDays (clientX - dragStartX) zoom = 0 then dragStartX
  else clientX

/-- Date comparison `a < b` on JavaScript `Date` objects: any comparison
involving an Invalid Date (`NaN`) is false. -/
def jsDateLT (a b : Option Int) : Bool :=
  match a, b with
  | some x, some y => x < y
  | _, _ => false

/-- `d.toISOString().split('T')[0]`: yields the date's day number for a
valid date and throws `RangeError: Invalid time value` on an Invalid
Date. -/
def jsToISODate (d : Option Int) : Except String Int :=
  match d with
  | some x => .ok x
  | none => .error "RangeError: Invalid time value"

/-- The per-item mutation of `handleDrag` (lines 183–207) on a raw item,
with thrown exceptions reified in `Except`.  Mode `'start'` and `'end'`
guard the mutation with a `Date` comparison (false on Invalid Dates, hence
never reaching `toISOString` on an invalid value); mode `'move'` writes
both dates unconditionally via `toISOString`, which throws on an Invalid
Date. -/
def dragStepRawItem (ty : DragType) (daysDelta : Int) (item : RawItem) :
    Except String RawItem :=
  match ty with
  | .start =>
    let s := jsAddDays item.start daysDelta
    if jsDateLT s item.end_ then do
      let v ← jsToISODate s
      .ok { item with start := some v }
    else .ok item
  | .end_ =>
    let e := jsAddDays item.end_ daysDelta
    if jsDateLT item.start e then do
      let v ← jsToISODate e
      .ok { item with end_ := some v }
    else .ok item
  | .move => do
    let s ← jsToISODate (jsAddDays item.start daysDelta)
    let e ← jsToISODate (jsAddDays item.end_ daysDelta)
    .ok { item with start := some s, end_ := some e }

/-- The drag-step mutation specialised to an item with valid dates, where
it never throws: mode `'start'` applies `start += delta` only when the
candidate stays strictly before `end`, mode `'end'` symmetrically, and
mode `'move'` shifts both dates. -/
def dragStepItem (ty : DragType) (daysDelta : Int) (item : Item) : Item :=
  match ty with
  | .start =>
    if item.start + daysDelta < item.end_ then
      { item with start := item.start + daysDelta }
    else item
  | .end_ =>
    if item.start < item.end_ + daysDelta then
      { item with end_ := item.end_ + daysDelta }
    else item
  | .move =>
    { item with start := item.start + daysDelta, end_ := item.end_ + daysDelta }

/-- A sequence of drag steps applied to one item, each step a mode and a
(nonzero) day-delta. -/
def dragSteps (item : Item) (steps : List (DragType × Int)) : Item :=
  steps.foldl (fun it p => dragStepItem p.1 p.2 it) item

/-! ## Specification predicates for the lane-assignment claims -/

/-- The closed day interval `[start, end]` of an item contains the day `t`. -/
def containsDay (t : Int) (i : Item) : Bool :=
  decide (i.start ≤ t) && decide (t ≤ i.end_)

/-- The number of items whose `[start, end]` interval contains the instant
`t`; the interval graph's clique number is the maximum of this over `t`. -/
def overlapCountAt (items : List Item) (t : Int) : Nat :=
  items.countP (containsDay t)

/-- Consecutive items of a lane satisfy the strict non-overlap relation
`earlier.end < later.start`. -/
def laneChain (lane : List Item) : Prop :=
  lane.Chain' (fun a b => a.end_ < b.start)

/-- An item whose interval is non-degenerate: `start ≤ end`. -/
def validItem (i : Item) : Prop := i.start ≤ i.end_

/-- The start date of a lane's first item (0 on the never-occurring empty
lane); used to express that lanes are listed in creation order. -/
def laneHeadStart (lane : List Item) : Int :=
  match lane.head? with
  | some i => i.start
  | none => 0

instance : IsTotal Item startLE := ⟨fun a b => Int.le_total a.start b.start⟩

instance : IsTrans Item startLE := ⟨fun _ _ _ h₁ h₂ => le_trans h₁ h₂⟩

/-- The invariant the lane-assignment fold maintains: after feeding the
items `processed` (in sorted order) through `assignItemToLane`, the lanes
partition exactly the processed items, every lane is non-empty and a
strict-non-overlap chain, the lanes' head start dates are nondecreasing in
lane-creation order, and (unless no lane exists yet) some instant is
covered by at least as many processed items as there are lanes. -/
structure LaneInv (processed : List Item) (lanes : List (List Item)) : Prop where
  perm : lanes.flatten.Perm processed
  nonempty : ∀ l ∈ lanes, l ≠ []
  chain : ∀ l ∈ lanes, laneChain l
  heads : (lanes.map laneHeadStart).Pairwise (· ≤ ·)
  witnessT : lanes = [] ∨ ∃ t, lanes.length ≤ overlapCountAt processed t

end Timeline

section Sanity
open Timeline

example : assignLanesToItems (some [⟨1, 0, 4⟩, ⟨2, 2, 6⟩, ⟨3, 5, 9⟩]) =
    [[⟨1, 0, 4⟩, ⟨3, 5, 9⟩], [⟨2, 2, 6⟩]] := by decide

example : assignLanesToItems none = [] := by decide

example : calculateDateRange 100 (some [⟨1, some 10, some 20⟩, ⟨2, some 5, some 15⟩]) =
    { minDate := some (-2), maxDate := some 27 } := by decide

example : calculateDateRange 100 (some [⟨1, none, some 20⟩]) =
    { minDate := none, maxDate := some 27 } := by decide

example : calculateDateRange 100 (some [⟨1, none, none⟩]) =
    { minDate := none, maxDate := none } := by decide

example : getItemStyle 0 1 ⟨1, 3, 5⟩ = { left := 72, width := 80 } := by
  norm_num [getItemStyle]

example : pixelDeltaToDays 72 1 = 3 := by norm_num [pixelDeltaToDays, jsRound]

example : pixelDeltaToDays 5 1 = 0 := by
  norm_num [pixelDeltaToDays, jsRound, Int.floor_eq_iff]

example : nextDragStartX 0 5 1 = 0 := by
  norm_num [nextDragStartX, pixelDeltaToDays, jsRound, Int.floor_eq_iff]

example : dragStepRawItem .move 1 ⟨7, none, some 5⟩ =
    .error "RangeError: Invalid time value" := rfl

example : dragStepRawItem .start 10 ⟨7, some 0, some 5⟩ = .ok ⟨7, some 0, some 5⟩ := rfl

example : dragStepItem .start 2 ⟨7, 0, 5⟩ = ⟨7, 2, 5⟩ := by decide

end Sanity

namespace Timeline

/-! ## Helper lemmas -/

lemma foldl_jsMin2_map_some (xs : List Int) (x : Int) :
    (xs.map some).foldl jsMin2 (some x) = some (xs.foldl min x) := by
  induction xs generalizing x with
  | nil => rfl
  | cons y ys ih => simp [jsMin2, ih]

lemma foldl_jsMax2_map_some (xs : List Int) (x : Int) :
    (xs.map some).foldl jsMax2 (some x) = some (xs.foldl max x) := by
  induction xs generalizing x with
  | nil => rfl
  | cons y ys ih => simp [jsMax2, ih]

lemma jsMinList_map_some (l : List Int) : jsMinList (l.map some) = l.min? := by
  cases l with
  | nil => rfl
  | cons x xs => simp [jsMinList, List.min?, foldl_jsMin2_map_some]

lemma jsMaxList_map_some (l : List Int) : jsMaxList (l.map some) = l.max? := by
  cases l with
  | nil => rfl
  | cons x xs => simp [jsMaxList, List.max?, foldl_jsMax2_map_some]

lemma floor_intCast_add_half (n : Int) : ⌊(n : ℚ) + 1 / 2⌋ = n := by
  rw [Int.floor_int_add]
  norm_num [Int.floor_eq_iff]

/-- Agreement of the raw (exception-reifying) drag step with the valid-date
drag step: on an item whose dates parse, no branch throws. -/
lemma dragStepRawItem_toRaw (ty : DragType) (d : Int) (item : Item) :
    dragStepRawItem ty d item.toRaw = Except.ok (dragStepItem ty d item).toRaw := by
  cases ty with
  | start =>
    by_cases hc : item.start + d < item.end_ <;>
      simp [dragStepRawItem, dragStepItem, Item.toRaw, jsAddDays, jsDateLT, jsToISODate, hc,
        Bind.bind, Except.bind]
  | end_ =>
    by_cases hc : item.start < item.end_ + d <;>
      simp [dragStepRawItem, dragStepItem, Item.toRaw, jsAddDays, jsDateLT, jsToISODate, hc,
        Bind.bind, Except.bind]
  | move =>
    simp [dragStepRawItem, dragStepItem, Item.toRaw, jsAddDays, jsToISODate,
      Bind.bind, Except.bind]

/-- A single drag step of any mode preserves `start < end`. -/
lemma dragStepItem_lt (ty : DragType) (d : Int) (item : Item)
    (h : item.start < item.end_) :
    (dragStepItem ty d item).start < (dragStepItem ty d item).end_ := by
  cases ty with
  | start =>
    simp only [dragStepItem]
    split
    next hc => exact hc
    next => exact h
  | end_ =>
    simp only [dragStepItem]
    split
    next hc => exact hc
    next => exact h
  | move =>
    show item.start + d < item.end_ + d
    omega

lemma dragSteps_lt (steps : List (DragType × Int)) (item : Item)
    (h : item.start < item.end_) :
    (dragSteps item steps).start < (dragSteps item steps).end_ := by
  induction steps generalizing item with
  | nil => exact h
  | cons p ps ih =>
    simp only [dragSteps, List.foldl_cons] at *
    exact ih _ (dragStepItem_lt p.1 p.2 item h)

/-! ## Claim theorems: coordinate mapping and dragging -/

/-- C3: for every zoom factor in `[0.5, 5.0]` and every pair of
day-granularity dates, converting the pixel difference of their positions
back through `round(deltaX / (24 * zoom))` reconstructs exactly the day
difference (round-trip law). -/
theorem pixel_day_roundtrip (d1 d2 minDate : Int) (zoom : ℚ)
    (h05 : 1 / 2 ≤ zoom) (h5 : zoom ≤ 5) :
    pixelDeltaToDays (dateToPixel d2 minDate zoom - dateToPixel d1 minDate zoom) zoom =
      daysBetween d1 d2 := by
  have hz0 : (0 : ℚ) < zoom := by linarith
  have hz : (24 : ℚ) * zoom ≠ 0 := ne_of_gt (by nlinarith)
  unfold pixelDeltaToDays dateToPixel daysBetween jsRound
  have hd : ((d2 - minDate : Int) : ℚ) * 24 * zoom - ((d1 - minDate : Int) : ℚ) * 24 * zoom =
      ((d2 - d1 : Int) : ℚ) * (24 * zoom) := by
    push_cast
    ring
  rw [hd, mul_div_cancel_right₀ _ hz, floor_intCast_add_half]

theorem pixel_day_roundtrip_witness :
    (1 / 2 : ℚ) ≤ 1 ∧ (1 : ℚ) ≤ 5 ∧
      pixelDeltaToDays (dateToPixel 5 0 1 - dateToPixel 2 0 1) 1 = daysBetween 2 5 :=
  ⟨by norm_num, by norm_num, pixel_day_roundtrip 2 5 0 1 (by norm_num) (by norm_num)⟩

/-- C4: a `'start'`-mode drag step whose candidate new start would reach or
pass the end leaves the item unchanged (a silent no-op), symmetrically for
`'end'` mode; on an item with parsed dates no branch throws (the raw step
returns `ok`); and any sequence of start- or end-handle steps preserves
`start < end`. -/
theorem dragStep_noop_preserves_order (item : Item) (h : item.start < item.end_) :
    (∀ d : Int, item.end_ ≤ item.start + d → dragStepItem .start d item = item) ∧
    (∀ d : Int, item.end_ + d ≤ item.start → dragStepItem .end_ d item = item) ∧
    (∀ ty d, dragStepRawItem ty d item.toRaw = Except.ok (dragStepItem ty d item).toRaw) ∧
    (∀ steps : List (DragType × Int), (∀ p ∈ steps, p.1 ≠ DragType.move) →
      (dragSteps item steps).start < (dragSteps item steps).end_) := by
  refine ⟨?_, ?_, fun ty d => dragStepRawItem_toRaw ty d item,
    fun steps _ => dragSteps_lt steps item h⟩
  · intro d hd
    simp only [dragStepItem]
    rw [if_neg (by omega)]
  · intro d hd
    simp only [dragStepItem]
    rw [if_neg (by omega)]

theorem dragStep_noop_preserves_order_witness :
    ((⟨0, 0, 5⟩ : Item).start < (⟨0, 0, 5⟩ : Item).end_) ∧
      dragStepItem .start 10 ⟨0, 0, 5⟩ = ⟨0, 0, 5⟩ ∧
      dragStepItem .end_ (-10) ⟨0, 0, 5⟩ = ⟨0, 0, 5⟩ ∧
      (dragSteps ⟨0, 0, 5⟩ [(.start, 2), (.end_, -1)]).start <
        (dragSteps ⟨0, 0, 5⟩ [(.start, 2), (.end_, -1)]).end_ :=
  ⟨by decide,
    (dragStep_noop_preserves_order ⟨0, 0, 5⟩ (by decide)).1 10 (by decide),
    (dragStep_noop_preserves_order ⟨0, 0, 5⟩ (by decide)).2.1 (-10) (by decide),
    (dragStep_noop_preserves_order ⟨0, 0, 5⟩ (by decide)).2.2.2
      [(.start, 2), (.end_, -1)] (by decide)⟩

/-- C8: the computed geometry is `left = daysBetween(minDate, start) * 24 *
zoom` and `width = max(daysBetween(start, end) * 24 * zoom, 80)` for any
zoom in `[0.5, 5.0]`; in particular a 2-day item has width 80 at zoom 1
(clamped) and 240 at zoom 5. -/
theorem getItemStyle_geometry (minDate : Int) (zoom : ℚ) (item : Item)
    (h05 : 1 / 2 ≤ zoom) (h5 : zoom ≤ 5) :
    (getItemStyle minDate zoom item).left =
      ((daysBetween minDate item.start : Int) : ℚ) * 24 * zoom ∧
    (getItemStyle minDate zoom item).width =
      max (((daysBetween item.start item.end_ : Int) : ℚ) * 24 * zoom) 80 ∧
    (getItemStyle 0 1 ⟨0, 0, 2⟩).width = 80 ∧
    (getItemStyle 0 5 ⟨0, 0, 2⟩).width = 240 := by
  have hfloor : ⌊((item.start : ℚ) - (minDate : ℚ))⌋ = item.start - minDate := by
    rw [show ((item.start : ℚ) - (minDate : ℚ)) = ((item.start - minDate : Int) : ℚ) by
      push_cast; ring]
    exact Int.floor_intCast _
  have hceil : ⌈((item.end_ : ℚ) - (minDate : ℚ))⌉ = item.end_ - minDate := by
    rw [show ((item.end_ : ℚ) - (minDate : ℚ)) = ((item.end_ - minDate : Int) : ℚ) by
      push_cast; ring]
    exact Int.ceil_intCast _
  refine ⟨?_, ?_, by norm_num [getItemStyle], by norm_num [getItemStyle]⟩
  · simp only [getItemStyle, hfloor, daysBetween]
  · simp only [getItemStyle, hfloor, hceil, daysBetween]
    norm_num

theorem getItemStyle_geometry_witness :
    (1 / 2 : ℚ) ≤ 1 ∧ (1 : ℚ) ≤ 5 ∧
      ((getItemStyle 10 1 ⟨3, 13, 15⟩).left =
          ((daysBetween 10 (13 : Int) : Int) : ℚ) * 24 * 1 ∧
        (getItemStyle 10 1 ⟨3, 13, 15⟩).width =
          max (((daysBetween (13 : Int) 15 : Int) : ℚ) * 24 * 1) 80 ∧
        (getItemStyle 0 1 ⟨0, 0, 2⟩).width = 80 ∧
        (getItemStyle 0 5 ⟨0, 0, 2⟩).width = 240) :=
  ⟨by norm_num, by norm_num, getItemStyle_geometry 10 1 ⟨3, 13, 15⟩ (by norm_num) (by norm_num)⟩

end Timeline

namespace Timeline

/-- C5: the visible-range computation returns the default window
`[today, today+30]` on a null/undefined or empty item sequence, and
`[min(start) - 7, max(end) + 7]` on any sequence of items with valid
dates. -/
theorem calculateDateRange_padded_window (today : Int) (items : List Item)
    (m M : Int)
    (hmin : (items.map Item.start).min? = some m)
    (hmax : (items.map Item.end_).max? = some M) :
    calculateDateRange today (some (items.map Item.toRaw)) =
      { minDate := some (m - 7), maxDate := some (M + 7) } ∧
    calculateDateRange today (some []) =
      { minDate := some today, maxDate := some (today + 30) } ∧
    calculateDateRange today none =
      { minDate := some today, maxDate := some (today + 30) } := by
  refine ⟨?_, rfl, rfl⟩
  have hne : items ≠ [] := by
    intro h
    rw [h] at hmin
    simp [List.min?] at hmin
  have hstarts : (items.map Item.toRaw).map (·.start) = (items.map Item.start).map some := by
    simp [Item.toRaw, Function.comp_def]
  have hends : (items.map Item.toRaw).map (·.end_) = (items.map Item.end_).map some := by
    simp [Item.toRaw, Function.comp_def]
  have hempty : (items.map Item.toRaw).isEmpty = false := by
    simp [List.isEmpty_iff, hne]
  simp only [calculateDateRange, hempty, Bool.false_eq_true, if_false, hstarts, hends,
    jsMinList_map_some, jsMaxList_map_some, hmin, hmax, jsAddDays, Option.map_some]
  rfl

theorem calculateDateRange_padded_window_witness :
    (([⟨1, 10, 20⟩, ⟨2, 5, 15⟩] : List Item).map Item.start).min? = some 5 ∧
    (([⟨1, 10, 20⟩, ⟨2, 5, 15⟩] : List Item).map Item.end_).max? = some 20 ∧
    (calculateDateRange 100 (some (([⟨1, 10, 20⟩, ⟨2, 5, 15⟩] : List Item).map Item.toRaw)) =
        { minDate := some (-2), maxDate := some 27 } ∧
      calculateDateRange 100 (some []) =
        { minDate := some 100, maxDate := some 130 } ∧
      calculateDateRange 100 none =
        { minDate := some 100, maxDate := some 130 }) :=
  ⟨by decide, by decide,
    calculateDateRange_padded_window 100 [⟨1, 10, 20⟩, ⟨2, 5, 15⟩] 5 20 (by decide) (by decide)⟩

/-- C6 evaluation: on an item sequence containing a malformed start date,
`calculateDateRange` does not fall back to the default `[today, today+30]`
window; the `NaN` of the malformed date propagates without an exception, so
the `catch` fallback never fires and the result carries an Invalid Date. -/
theorem calculateDateRange_malformed_propagates :
    calculateDateRange 0 (some [{ id := 1, start := none, end_ := some 5 }]) =
      { minDate := none, maxDate := some 12 } ∧
    ({ minDate := none, maxDate := some 12 } : DateRange) ≠
      { minDate := some 0, maxDate := some (0 + 30) } := by decide

/-- C7 evaluation: the `'move'`-mode drag step on an item whose start date
is unparseable throws (`toISOString` on an Invalid Date raises a
`RangeError`), so the drag-step mutation is not total. -/
theorem dragStep_move_invalid_date_throws :
    dragStepRawItem .move 1 { id := 7, start := none, end_ := some 5 } =
      .error "RangeError: Invalid time value" := rfl

/-- C9 counterexample: a pointer move whose rounded day delta is zero does
*not* advance the drag reference X — with `dragStartX = 0`, a move to
`clientX = 5` at zoom 1 (day delta `round(5/24) = 0`) leaves the reference
at 0, accumulating the sub-day remainder across frames. -/
theorem nextDragStartX_zero_delta_counterexample :
    nextDragStartX 0 5 1 = 0 ∧ nextDragStartX 0 5 1 ≠ 5 := by
  have h : pixelDeltaToDays 5 1 = 0 := by
    norm_num [pixelDeltaToDays, jsRound, Int.floor_eq_iff]
  constructor <;> simp [nextDragStartX, h]

/-- C9 amended: the drag reference X advances to the current pointer X
exactly on the moves whose computed day delta is nonzero; a zero-delta
move returns early before `setDragStartX`, leaving the reference (and thus
the sub-day remainder) to accumulate across frames. -/
theorem nextDragStartX_update_policy (x cx zoom : ℚ) :
    (pixelDeltaToDays (cx - x) zoom = 0 → nextDragStartX x cx zoom = x) ∧
    (pixelDeltaToDays (cx - x) zoom ≠ 0 → nextDragStartX x cx zoom = cx) := by
  constructor <;> intro h <;> simp [nextDragStartX, h]

theorem nextDragStartX_update_policy_witness :
    nextDragStartX 0 5 1 = 0 ∧ nextDragStartX 0 30 1 = 30 :=
  ⟨(nextDragStartX_update_policy 0 5 1).1
      (by norm_num [pixelDeltaToDays, jsRound, Int.floor_eq_iff]),
    (nextDragStartX_update_policy 0 30 1).2
      (by norm_num [pixelDeltaToDays, jsRound, Int.floor_eq_iff])⟩

/-- C10: a null/undefined `items` argument makes `assignLanesToItems`
return the empty lane sequence, exactly as the empty-array input does. -/
theorem assignLanesToItems_null_input :
    assignLanesToItems none = [] ∧
    assignLanesToItems none = assignLanesToItems (some []) := ⟨rfl, rfl⟩

end Timeline

namespace Timeline

/-! ## Lane-assignment invariant lemmas -/

lemma mem_of_getLast?_eq {α : Type} {l : List α} {a : α} (h : l.getLast? = some a) :
    a ∈ l := by
  obtain ⟨ys, rfl⟩ := List.getLast?_eq_some_iff.mp h
  simp

lemma laneOk_getLast {lane : List Item} {item : Item} (h : laneOk lane item = true) :
    ∃ lastItem, lane.getLast? = some lastItem ∧ lastItem.end_ < item.start := by
  unfold laneOk at h
  cases hl : lane.getLast? with
  | none => rw [hl] at h; exact absurd h (by simp)
  | some lastItem =>
    rw [hl] at h
    exact ⟨lastItem, rfl, by simpa using h⟩

lemma laneOk_false {lane : List Item} {item : Item} (hne : lane ≠ [])
    (h : laneOk lane item = false) :
    ∃ lastItem, lane.getLast? = some lastItem ∧ item.start ≤ lastItem.end_ := by
  obtain ⟨lastItem, hl⟩ := Option.isSome_iff_exists.mp (List.getLast?_isSome.mpr hne)
  refine ⟨lastItem, hl, ?_⟩
  unfold laneOk at h
  rw [hl] at h
  simpa using h

/-- Characterization of one `assignItemToLane` pass: either the item is
pushed onto some qualifying lane in place, or it fails every lane's test
and a fresh singleton lane is appended. -/
lemma assignItemToLane_cases (lanes : List (List Item)) (item : Item) :
    (∃ pre lane post, lanes = pre ++ lane :: post ∧ laneOk lane item = true ∧
      assignItemToLane lanes item = pre ++ (lane ++ [item]) :: post) ∨
    ((∀ l ∈ lanes, laneOk l item = false) ∧
      assignItemToLane lanes item = lanes ++ [[item]]) := by
  induction lanes with
  | nil => exact .inr ⟨by simp, rfl⟩
  | cons lane rest ih =>
    cases h : laneOk lane item with
    | true => exact .inl ⟨[], lane, rest, rfl, h, by simp [assignItemToLane, h]⟩
    | false =>
      rcases ih with ⟨pre, ln, post, heq, hok, hres⟩ | ⟨hall, hres⟩
      · exact .inl ⟨lane :: pre, ln, post, by rw [heq]; rfl, hok,
          by simp [assignItemToLane, h, hres]⟩
      · refine .inr ⟨?_, by simp [assignItemToLane, h, hres]⟩
        intro l hl
        rcases List.mem_cons.mp hl with rfl | hl'
        · exact h
        · exact hall l hl'

lemma assignItemToLane_flatten_perm (lanes : List (List Item)) (item : Item) :
    (assignItemToLane lanes item).flatten.Perm (item :: lanes.flatten) := by
  rcases assignItemToLane_cases lanes item with ⟨pre, lane, post, heq, _, hres⟩ | ⟨_, hres⟩
  · subst heq
    rw [hres]
    have h1 : (pre ++ (lane ++ [item]) :: post).flatten =
        (pre.flatten ++ lane) ++ item :: post.flatten := by
      simp [List.flatten_append, List.append_assoc]
    have h2 : (pre ++ lane :: post).flatten =
        (pre.flatten ++ lane) ++ post.flatten := by
      simp [List.flatten_append, List.append_assoc]
    rw [h1, h2]
    exact List.perm_middle
  · rw [hres]
    have h1 : (lanes ++ [[item]]).flatten = lanes.flatten ++ [item] := by
      simp
    rw [h1]
    exact List.perm_append_singleton item lanes.flatten

lemma laneHeadStart_append_singleton {lane : List Item} (hne : lane ≠ []) (item : Item) :
    laneHeadStart (lane ++ [item]) = laneHeadStart lane := by
  cases lane with
  | nil => exact absurd rfl hne
  | cons a as => simp [laneHeadStart]

lemma laneHeadStart_le_of_bound {processed : List Item} {lanes : List (List Item)}
    (inv : LaneInv processed lanes) {l : List Item} (hl : l ∈ lanes)
    {s : Int} (hb : ∀ p ∈ processed, p.start ≤ s) : laneHeadStart l ≤ s := by
  cases hcl : l with
  | nil => exact absurd hcl (inv.nonempty l hl)
  | cons a as =>
    have ha : a ∈ lanes.flatten := List.mem_flatten.mpr ⟨l, hl, by rw [hcl]; simp⟩
    have := hb a (inv.perm.mem_iff.mp ha)
    simpa [laneHeadStart] using this

/-- One step of the fold preserves the invariant, provided the incoming
item starts no earlier than every processed item (sortedness) and has a
non-degenerate interval. -/
lemma laneInv_step {processed : List Item} {lanes : List (List Item)} {item : Item}
    (hbound : ∀ p ∈ processed, p.start ≤ item.start)
    (hvi : validItem item)
    (inv : LaneInv processed lanes) :
    LaneInv (processed ++ [item]) (assignItemToLane lanes item) := by
  have hperm : (assignItemToLane lanes item).flatten.Perm (processed ++ [item]) :=
    (assignItemToLane_flatten_perm lanes item).trans
      ((inv.perm.cons item).trans (List.perm_append_singleton item processed).symm)
  rcases assignItemToLane_cases lanes item with ⟨pre, lane, post, heq, hok, hres⟩ | ⟨hall, hres⟩
  · -- the item is pushed onto an existing qualifying lane
    obtain ⟨lastItem, hlast, hlt⟩ := laneOk_getLast hok
    have hlane_ne : lane ≠ [] := by
      intro h
      rw [h] at hlast
      simp at hlast
    refine ⟨hperm, ?_, ?_, ?_, ?_⟩
    · intro l hl
      rw [hres] at hl
      rcases List.mem_append.mp hl with hpre | hrest
      · exact inv.nonempty l (by rw [heq]; exact List.mem_append_left _ hpre)
      · rcases List.mem_cons.mp hrest with rfl | hpost
        · simp
        · exact inv.nonempty l (by rw [heq]; exact List.mem_append_right _ (List.mem_cons_of_mem _ hpost))
    · intro l hl
      rw [hres] at hl
      rcases List.mem_append.mp hl with hpre | hrest
      · exact inv.chain l (by rw [heq]; exact List.mem_append_left _ hpre)
      · rcases List.mem_cons.mp hrest with rfl | hpost
        · have hchain : laneChain lane := inv.chain lane (by rw [heq]; simp)
          unfold laneChain at hchain ⊢
          rw [List.chain'_append]
          refine ⟨hchain, List.chain'_singleton item, ?_⟩
          intro x hx y hy
          rw [hlast] at hx
          simp at hx hy
          subst hx
          subst hy
          exact hlt
        · exact inv.chain l (by rw [heq]; exact List.mem_append_right _ (List.mem_cons_of_mem _ hpost))
    · have hmap : (assignItemToLane lanes item).map laneHeadStart = lanes.map laneHeadStart := by
        rw [hres, heq]
        simp [laneHeadStart_append_singleton hlane_ne]
      rw [hmap]
      exact inv.heads
    · right
      have hlen : (assignItemToLane lanes item).length = lanes.length := by
        rw [hres, heq]
        simp
      rcases inv.witnessT with hnil | ⟨t, hle⟩
      · rw [heq] at hnil
        exact absurd hnil (by simp)
      · refine ⟨t, ?_⟩
        rw [hlen]
        calc lanes.length ≤ overlapCountAt processed t := hle
          _ ≤ overlapCountAt (processed ++ [item]) t := by
            unfold overlapCountAt
            rw [List.countP_append]
            exact Nat.le_add_right _ _
  · -- every lane fails the test: a new singleton lane is appended
    refine ⟨hperm, ?_, ?_, ?_, ?_⟩
    · intro l hl
      rw [hres] at hl
      rcases List.mem_append.mp hl with hold | hnew
      · exact inv.nonempty l hold
      · simp at hnew
        subst hnew
        simp
    · intro l hl
      rw [hres] at hl
      rcases List.mem_append.mp hl with hold | hnew
      · exact inv.chain l hold
      · simp at hnew
        subst hnew
        exact List.chain'_singleton item
    · rw [hres]
      rw [List.map_append]
      rw [List.pairwise_append]
      refine ⟨inv.heads, by simp, ?_⟩
      intro a ha b hb
      simp [laneHeadStart] at hb
      obtain ⟨l, hl, rfl⟩ := List.mem_map.mp ha
      rw [hb]
      exact laneHeadStart_le_of_bound inv hl hbound
    · right
      refine ⟨item.start, ?_⟩
      have hlen : (assignItemToLane lanes item).length = lanes.length + 1 := by
        rw [hres]
        simp
      rw [hlen]
      have hitem : containsDay item.start item = true := by
        simp [containsDay]
        exact hvi
      have hcount : overlapCountAt (processed ++ [item]) item.start =
          overlapCountAt processed item.start + 1 := by
        unfold overlapCountAt
        rw [List.countP_append]
        simp [hitem]
      rw [hcount]
      have hlanes : lanes.length ≤ overlapCountAt processed item.start := by
        unfold overlapCountAt
        rw [← inv.perm.countP_eq]
        rw [List.countP_flatten]
        have hone : ∀ l ∈ lanes, 1 ≤ l.countP (containsDay item.start) := by
          intro l hl
          obtain ⟨lastItem, hlast, hge⟩ := laneOk_false (inv.nonempty l hl) (hall l hl)
          have hmem : lastItem ∈ l := mem_of_getLast?_eq hlast
          have hstart : lastItem.start ≤ item.start := by
            refine hbound lastItem (inv.perm.mem_iff.mp ?_)
            exact List.mem_flatten.mpr ⟨l, hl, hmem⟩
          refine List.countP_pos.mpr ⟨lastItem, hmem, ?_⟩
          simp [containsDay]
          exact ⟨hstart, hge⟩
        calc lanes.length = (lanes.map (List.countP (containsDay item.start))).length • 1 := by
              simp
          _ ≤ (lanes.map (List.countP (containsDay item.start))).sum := by
              refine List.card_nsmul_le_sum _ 1 ?_
              intro x hx
              obtain ⟨l, hl, rfl⟩ := List.mem_map.mp hx
              exact hone l hl
      omega

end Timeline

namespace Timeline

lemma laneInv_fold (rem : List Item) (processed : List Item) (lanes : List (List Item))
    (hsorted : List.Pairwise startLE (processed ++ rem))
    (hvalid : ∀ i ∈ rem, validItem i)
    (inv : LaneInv processed lanes) :
    LaneInv (processed ++ rem) (rem.foldl assignItemToLane lanes) := by
  induction rem generalizing processed lanes with
  | nil => simpa using inv
  | cons i is ih =>
    have hbound : ∀ p ∈ processed, p.start ≤ i.start := by
      intro p hp
      exact (List.pairwise_append.mp hsorted).2.2 p hp i (List.mem_cons_self i is)
    have hstep := laneInv_step hbound (hvalid i (List.mem_cons_self i is)) inv
    have hsorted' : List.Pairwise startLE ((processed ++ [i]) ++ is) := by
      simpa [List.append_assoc] using hsorted
    have hres := ih (processed ++ [i]) (assignItemToLane lanes i) hsorted'
      (fun x hx => hvalid x (List.mem_cons_of_mem _ hx)) hstep
    simpa [List.append_assoc] using hres

/-- The invariant at the end of `assignLanes`, relative to the sorted item
list. -/
lemma laneInv_assignLanes (items : List Item) (hvalid : ∀ i ∈ items, validItem i) :
    LaneInv (sortByStart items) (assignLanes items) := by
  have hsorted : List.Pairwise startLE (sortByStart items) :=
    List.sorted_insertionSort startLE items
  have hvalidS : ∀ i ∈ sortByStart items, validItem i := fun i hi =>
    hvalid i ((List.perm_insertionSort startLE items).mem_iff.mp hi)
  have h0 : LaneInv [] [] :=
    ⟨by simp, by simp, by simp, by simp, Or.inl rfl⟩
  simpa using laneInv_fold (sortByStart items) [] [] (by simpa using hsorted) hvalidS h0

/-- Every item of the tail of a strict-non-overlap chain starts strictly
after the head ends, when the chain's items have non-degenerate
intervals. -/
lemma laneChain_head_lt : ∀ (a : Item) (rest : List Item),
    laneChain (a :: rest) → (∀ x ∈ a :: rest, validItem x) →
    ∀ b ∈ rest, a.end_ < b.start := by
  intro a rest
  induction rest generalizing a with
  | nil => intro _ _ b hb; simp at hb
  | cons c cs ih =>
    intro hchain hvalid b hb
    unfold laneChain at hchain
    have h1 : a.end_ < c.start := (List.chain'_cons.mp hchain).1
    rcases List.mem_cons.mp hb with rfl | hb'
    · exact h1
    · have h2 : c.end_ < b.start := by
        refine ih c (List.chain'_cons.mp hchain).2 ?_ b hb'
        intro x hx
        exact hvalid x (List.mem_cons_of_mem _ hx)
      have h3 : c.start ≤ c.end_ := hvalid c (by simp)
      omega

/-- At any single instant, a lane contributes at most one item. -/
lemma lane_countP_le_one (t : Int) : ∀ (lane : List Item),
    laneChain lane → (∀ x ∈ lane, validItem x) →
    lane.countP (containsDay t) ≤ 1 := by
  intro lane
  induction lane with
  | nil => intro _ _; simp
  | cons a rest ih =>
    intro hchain hvalid
    rw [List.countP_cons]
    by_cases ha : containsDay t a = true
    · have hrest : rest.countP (containsDay t) = 0 := by
        rw [List.countP_eq_zero]
        intro b hb
        have hab : a.end_ < b.start := laneChain_head_lt a rest hchain hvalid b hb
        simp [containsDay] at ha ⊢
        intro hbs
        omega
      rw [hrest]
      simp [ha]
    · have htail : laneChain rest := by
        unfold laneChain at hchain ⊢
        exact hchain.tail
      simp only [ha, if_false]
      simpa using ih htail (fun x hx => hvalid x (List.mem_cons_of_mem _ hx))

/-- Upper bound: no instant is covered by more items than there are
lanes. -/
lemma overlap_le_lanes_length {processed : List Item} {lanes : List (List Item)}
    (inv : LaneInv processed lanes)
    (hvalid : ∀ x ∈ processed, validItem x) (t : Int) :
    overlapCountAt processed t ≤ lanes.length := by
  unfold overlapCountAt
  rw [← inv.perm.countP_eq]
  rw [List.countP_flatten]
  calc (lanes.map (List.countP (containsDay t))).sum
      ≤ (lanes.map (List.countP (containsDay t))).length • 1 := by
        refine List.sum_le_card_nsmul _ 1 ?_
        intro x hx
        obtain ⟨l, hl, rfl⟩ := List.mem_map.mp hx
        refine lane_countP_le_one t l (inv.chain l hl) ?_
        intro y hy
        exact hvalid y (inv.perm.mem_iff.mp (List.mem_flatten.mpr ⟨l, hl, hy⟩))
    _ = lanes.length := by simp

/-- Strictly increasing start dates along a lane, given non-degenerate
intervals. -/
lemma laneChain_start_lt : ∀ (lane : List Item),
    laneChain lane → (∀ x ∈ lane, validItem x) →
    lane.Chain' (fun a b => a.start < b.start) := by
  intro lane
  induction lane with
  | nil => intro _ _; simp
  | cons a rest ih =>
    intro hchain hvalid
    cases rest with
    | nil => simp
    | cons c cs =>
      unfold laneChain at hchain
      rw [List.chain'_cons] at hchain ⊢
      constructor
      · have h2 : a.start ≤ a.end_ := hvalid a (by simp)
        have h1 := hchain.1
        omega
      · exact ih hchain.2 (fun x hx => hvalid x (List.mem_cons_of_mem _ hx))

end Timeline

namespace Timeline

/-- C1: for every non-empty item sequence with valid (non-degenerate)
day-granularity dates, `assignLanesToItems` places every input item in
exactly one lane — the flattened lanes are a permutation of the input —
and the number of lanes equals the maximum, over all instants `t`, of the
number of items whose `[start, end]` day interval contains `t` (the clique
number of the interval graph under the strict `end < start` compatibility
test): some instant attains the lane count and no instant exceeds it. -/
theorem lanes_partition_eq_max_overlap (items : List Item) (hne : items ≠ [])
    (hvalid : ∀ i ∈ items, i.start ≤ i.end_) :
    (assignLanesToItems (some items)).flatten.Perm items ∧
    (∃ t, overlapCountAt items t = (assignLanesToItems (some items)).length) ∧
    (∀ t, overlapCountAt items t ≤ (assignLanesToItems (some items)).length) := by
  have hE : assignLanesToItems (some items) = assignLanes items := by
    have h : items.isEmpty = false := by
      simpa [List.isEmpty_iff] using hne
    simp [assignLanesToItems, h]
  rw [hE]
  have inv := laneInv_assignLanes items hvalid
  have hperm_sort : (sortByStart items).Perm items := List.perm_insertionSort _ _
  have hflat : (assignLanes items).flatten.Perm items := inv.perm.trans hperm_sort
  have hvalidS : ∀ x ∈ sortByStart items, validItem x := fun x hx =>
    hvalid x (hperm_sort.mem_iff.mp hx)
  have hub : ∀ t, overlapCountAt items t ≤ (assignLanes items).length := by
    intro t
    have h := overlap_le_lanes_length inv hvalidS t
    unfold overlapCountAt at h ⊢
    rwa [hperm_sort.countP_eq] at h
  refine ⟨hflat, ?_, hub⟩
  rcases inv.witnessT with hnil | ⟨t, hle⟩
  · exfalso
    rw [hnil] at hflat
    exact hne (List.perm_nil.mp hflat.symm)
  · refine ⟨t, le_antisymm (hub t) ?_⟩
    unfold overlapCountAt at hle ⊢
    rwa [hperm_sort.countP_eq] at hle

theorem lanes_partition_eq_max_overlap_witness :
    (([⟨1, 1, 5⟩, ⟨2, 3, 7⟩, ⟨3, 6, 10⟩] : List Item) ≠ []) ∧
    ((assignLanesToItems (some [⟨1, 1, 5⟩, ⟨2, 3, 7⟩, ⟨3, 6, 10⟩])).flatten.Perm
        [⟨1, 1, 5⟩, ⟨2, 3, 7⟩, ⟨3, 6, 10⟩] ∧
      (∃ t, overlapCountAt [⟨1, 1, 5⟩, ⟨2, 3, 7⟩, ⟨3, 6, 10⟩] t =
        (assignLanesToItems (some [⟨1, 1, 5⟩, ⟨2, 3, 7⟩, ⟨3, 6, 10⟩])).length) ∧
      (∀ t, overlapCountAt [⟨1, 1, 5⟩, ⟨2, 3, 7⟩, ⟨3, 6, 10⟩] t ≤
        (assignLanesToItems (some [⟨1, 1, 5⟩, ⟨2, 3, 7⟩, ⟨3, 6, 10⟩])).length)) :=
  ⟨by decide,
    lanes_partition_eq_max_overlap [⟨1, 1, 5⟩, ⟨2, 3, 7⟩, ⟨3, 6, 10⟩]
      (by decide) (by decide)⟩

/-- C2: when every item satisfies `start ≤ end`, each lane produced by
`assignLanesToItems` lists its items in strictly ascending start-date
order with consecutive items strictly non-overlapping
(`earlier.end < later.start`), and the lanes appear in creation order —
realised here as: new lanes are only ever appended, so the lanes' head
start dates are nondecreasing along the lane list. -/
theorem lane_order_invariants (items : List Item)
    (hvalid : ∀ i ∈ items, i.start ≤ i.end_) :
    (∀ lane ∈ assignLanesToItems (some items),
      lane.Chain' (fun a b => a.end_ < b.start) ∧
      lane.Chain' (fun a b => a.start < b.start)) ∧
    ((assignLanesToItems (some items)).map laneHeadStart).Pairwise (· ≤ ·) := by
  by_cases hne : items = []
  · subst hne
    refine ⟨?_, ?_⟩ <;> simp [assignLanesToItems]
  · have hE : assignLanesToItems (some items) = assignLanes items := by
      have h : items.isEmpty = false := by
        simpa [List.isEmpty_iff] using hne
      simp [assignLanesToItems, h]
    rw [hE]
    have inv := laneInv_assignLanes items hvalid
    have hperm_sort : (sortByStart items).Perm items := List.perm_insertionSort _ _
    refine ⟨?_, inv.heads⟩
    intro lane hl
    have hchain := inv.chain lane hl
    have hv : ∀ x ∈ lane, validItem x := by
      intro x hx
      refine hvalid x (hperm_sort.mem_iff.mp (inv.perm.mem_iff.mp ?_))
      exact List.mem_flatten.mpr ⟨lane, hl, hx⟩
    exact ⟨hchain, laneChain_start_lt lane hchain hv⟩

theorem lane_order_invariants_witness :
    (∀ i ∈ ([⟨1, 1, 5⟩, ⟨2, 3, 7⟩, ⟨3, 6, 10⟩] : List Item), i.start ≤ i.end_) ∧
    ((∀ lane ∈ assignLanesToItems (some [⟨1, 1, 5⟩, ⟨2, 3, 7⟩, ⟨3, 6, 10⟩]),
        lane.Chain' (fun a b => a.end_ < b.start) ∧
        lane.Chain' (fun a b => a.start < b.start)) ∧
      ((assignLanesToItems (some [⟨1, 1, 5⟩, ⟨2, 3, 7⟩, ⟨3, 6, 10⟩])).map
          laneHeadStart).Pairwise (· ≤ ·)) :=
  ⟨by decide,
    lane_order_invariants [⟨1, 1, 5⟩, ⟨2, 3, 7⟩, ⟨3, 6, 10⟩] (by decide)⟩

end Timeline
